import Mathlib

/-!
Shallow embedding of the in-memory core of the `algoritmo911/SC` repository:
the LRU/TTL caches (`storage/caching.py`, `storage/cache.py`), the weighted
knowledge-unit graph (`sc/services/ku_graph.py`, `sc/api/graph.py`) and the
sliding-window rate limiter (`sc/api/knowledge.py`, `sc/services/flowshield.py`).

Python dictionaries are modelled as association lists that keep insertion
order (matching `dict` / `OrderedDict` iteration order); timestamps and
weights (Python floats) are modelled as rationals, since the code only
compares and adds them.
-/

namespace SC

/-! ### Ordered-dictionary helpers (Python `dict` semantics) -/

/-- Python `d.get(k)` / `k in d`: first value stored under key `k`. -/
def lookupKey {β : Type} : List (String × β) → String → Option β
  | [], _ => none
  | (k, v) :: rest, key => if k = key then some v else lookupKey rest key

/-- Python `del d[k]`: drop the entry with key `k` (first occurrence), keep order. -/
def eraseKey {β : Type} : List (String × β) → String → List (String × β)
  | [], _ => []
  | (k, v) :: rest, key => if k = key then rest else (k, v) :: eraseKey rest key

/-- Python `d[k] = v`: replace in place if present (keeping the entry position,
as Python `dict` assignment does), otherwise append at the end. -/
def setKey {β : Type} : List (String × β) → String → β → List (String × β)
  | [], key, v => [(key, v)]
  | (k, w) :: rest, key, v =>
      if k = key then (key, v) :: rest else (k, w) :: setKey rest key v

/-- The keys of an association list, in order. -/
def keysOf {β : Type} (l : List (String × β)) : List String :=
  l.map Prod.fst

/-! ### Knowledge-unit graph — `sc/services/ku_graph.py`

`ku_links: Dict[str, List[Tuple[str, float]]]`, the adjacency map. -/

/-- The graph state: source id mapped to its list of `(target, weight)` pairs. -/
abbrev KuLinks := List (String × List (String × ℚ))

/-- The body of `add_link`'s update loop: find the first entry for
`to_ku_id` and overwrite its weight, else append `(to_ku_id, weight)`. -/
def updateOrAppend : List (String × ℚ) → String → ℚ → List (String × ℚ)
  | [], to_id, w => [(to_id, w)]
  | (t, w0) :: rest, to_id, w =>
      if t = to_id then (to_id, w) :: rest else (t, w0) :: updateOrAppend rest to_id w

/-- Model of `ku_graph.add_link(from_ku_id, to_ku_id, weight)`.  Returns the Python
return value (`True` on add/update, `False` on invalid weight) together with
the new graph state. -/
def add_link (g : KuLinks) (from_ku_id to_ku_id : String) (weight : ℚ) :
    Bool × KuLinks :=
  if ¬ (0 ≤ weight ∧ weight ≤ 1) then
    (false, g)
  else
    let g1 := if (lookupKey g from_ku_id).isNone then g ++ [(from_ku_id, [])] else g
    let links := (lookupKey g1 from_ku_id).getD []
    (true, setKey g1 from_ku_id (updateOrAppend links to_ku_id weight))

/-- Model of `ku_graph.get_links_from(ku_id)`: `ku_links.get(ku_id)` — `None` when the
node was never a source. -/
def get_links_from (g : KuLinks) (ku_id : String) : Option (List (String × ℚ)) :=
  lookupKey g ku_id

/-! ### Graph API layer — `sc/api/graph.py` -/

/-- Outcome of a FastAPI handler: a normal return value, or an
`HTTPException(status_code, detail)`. -/
inductive ApiResult (α : Type) : Type where
  | ok (val : α) : ApiResult α
  | httpError (status : Nat) (detail : String) : ApiResult α
deriving DecidableEq, Repr

/-- Whether the handler outcome is an error response. -/
def ApiResult.isError {α : Type} : ApiResult α → Bool
  | .ok _ => false
  | .httpError _ _ => true

/-- Model of `link_knowledge_units(link_request)`: rejects self-loops with a 400
before touching the graph, then calls `ku_graph.add_link`; a `False` from
`add_link` is turned into a 400. -/
def link_knowledge_units (g : KuLinks) (from_ku_id to_ku_id : String) (weight : ℚ) :
    ApiResult (String × String × ℚ) × KuLinks :=
  if from_ku_id = to_ku_id then
    (.httpError 400 "Cannot link a Knowledge Unit to itself.", g)
  else
    let res := add_link g from_ku_id to_ku_id weight
    if res.1 then
      (.ok (from_ku_id, to_ku_id, weight), res.2)
    else
      (.httpError 400 "Failed to create link. Ensure weight is valid and KUs are distinct.", res.2)

/-- Model of `get_outgoing_links(ku_id)`: converts the `None` of `get_links_from`
into an empty list; never an error. -/
def get_outgoing_links (g : KuLinks) (ku_id : String) :
    String × List (String × ℚ) :=
  match get_links_from g ku_id with
  | none => (ku_id, [])
  | some links => (ku_id, links)

/-- Run a sequence of `link_knowledge_units` calls (the exposed operation),
threading the graph state. -/
def runLinkCalls (g : KuLinks) : List (String × String × ℚ) → KuLinks
  | [] => g
  | (f, t, w) :: rest => runLinkCalls (link_knowledge_units g f t w).2 rest

/-- Run a sequence of raw `add_link` calls, threading the graph state. -/
def runAddLinks (g : KuLinks) : List (String × String × ℚ) → KuLinks
  | [] => g
  | (f, t, w) :: rest => runAddLinks (add_link g f t w).2 rest

/-- Number of edges from `a` to `b` in `g`. -/
def countEdges (g : KuLinks) (a b : String) : Nat :=
  ((lookupKey g a).getD []).countP (fun p => p.1 = b)

/-! ### LRU cache — `storage/caching.py`, class `InMemoryLRUCache`

`self.cache` is an `OrderedDict[str, {"value", "ttl", "expires_at"}]`,
oldest (least-recently-used) entry first.  The `asyncio.Lock` makes each
method atomic, so each method is one state transformer. -/

/-- One cache entry: the dict `{"value": v, "ttl": t, "expires_at": e}`. -/
structure LRUEntry (α : Type) : Type where
  value : α
  ttl : Option ℚ
  expires_at : Option ℚ
deriving DecidableEq, Repr

/-- The cache state: ordered entries (front = oldest) plus `max_size`. -/
structure LRUCache (α : Type) : Type where
  cache : List (String × LRUEntry α)
  max_size : Nat
deriving DecidableEq, Repr

/-- Python `OrderedDict.move_to_end(key)`: move the entry for `key` to the back. -/
def moveToEnd {α : Type} (l : List (String × LRUEntry α)) (key : String) :
    List (String × LRUEntry α) :=
  match lookupKey l key with
  | none => l
  | some e => eraseKey l key ++ [(key, e)]

/-- The TTL check in `get`:
`entry["ttl"] is not None and entry["expires_at"] < time.monotonic()`. -/
def lruExpired {α : Type} (e : LRUEntry α) (now : ℚ) : Bool :=
  e.ttl.isSome && (match e.expires_at with
    | some ea => decide (ea < now)
    | none => false)

namespace LRUCache

/-- Model of `InMemoryLRUCache.__init__(max_size)`: raises `ValueError` when
`max_size <= 0`, otherwise builds an empty cache. -/
def init (α : Type) (max_size : Int) : Except String (LRUCache α) :=
  if max_size ≤ 0 then
    .error "Cache max_size must be positive."
  else
    .ok { cache := [], max_size := max_size.toNat }

/-- Model of `InMemoryLRUCache.get(key)` at monotonic time `now`: returns the Python
return value and the new state. -/
def get {α : Type} (c : LRUCache α) (now : ℚ) (key : String) :
    Option α × LRUCache α :=
  match lookupKey c.cache key with
  | none => (none, c)
  | some entry =>
      if lruExpired entry now then
        (none, { c with cache := eraseKey c.cache key })
      else
        (some entry.value, { c with cache := moveToEnd c.cache key })

/-- The entry list built by `InMemoryLRUCache.set` before the capacity
check: delete the key if present, insert the fresh entry at the end, and
`move_to_end` it (a no-op on an entry already at the end). -/
def setPre {α : Type} (c : LRUCache α) (now : ℚ) (key : String) (value : α)
    (ttl : Option ℚ) : List (String × LRUEntry α) :=
  let expires_at := ttl.map (fun t => now + t)
  let c1 := if (lookupKey c.cache key).isSome then eraseKey c.cache key else c.cache
  moveToEnd (c1 ++ [(key, ⟨value, ttl, expires_at⟩)]) key

/-- Model of `InMemoryLRUCache.set(key, value, ttl)` at monotonic time `now`: build
the post-insertion dict, then `popitem(last=False)` (drop the oldest, i.e.
front, entry) when the entry count exceeds `max_size`. -/
def set {α : Type} (c : LRUCache α) (now : ℚ) (key : String) (value : α)
    (ttl : Option ℚ) : LRUCache α :=
  let c3 := setPre c now key value ttl
  if c3.length > c.max_size then
    { c with cache := c3.tail }
  else
    { c with cache := c3 }

/-- Model of `InMemoryLRUCache.delete(key)`: the method is annotated `-> None` and
returns Python `None` (modelled as `Option.none`), only mutating the state. -/
def delete {α : Type} (c : LRUCache α) (key : String) :
    Option Bool × LRUCache α :=
  if (lookupKey c.cache key).isSome then
    (none, { c with cache := eraseKey c.cache key })
  else
    (none, c)

/-- Model of `InMemoryLRUCache.clear()`. -/
def clear {α : Type} (c : LRUCache α) : LRUCache α :=
  { c with cache := [] }

/-- Model of `InMemoryLRUCache.size()`. -/
def size {α : Type} (c : LRUCache α) : Nat :=
  c.cache.length

end LRUCache

/-- One observable operation on the LRU cache (each `get`/`set` carries the
monotonic clock value at which it runs). -/
inductive CacheOp (α : Type) : Type where
  | get (now : ℚ) (key : String) : CacheOp α
  | set (now : ℚ) (key : String) (value : α) (ttl : Option ℚ) : CacheOp α
  | delete (key : String) : CacheOp α
  | clear : CacheOp α

/-- Apply one operation to the cache state. -/
def applyCacheOp {α : Type} (c : LRUCache α) : CacheOp α → LRUCache α
  | .get now key => (LRUCache.get c now key).2
  | .set now key v ttl => LRUCache.set c now key v ttl
  | .delete key => (LRUCache.delete c key).2
  | .clear => LRUCache.clear c

/-- Run a sequence of operations. -/
def runCacheOps {α : Type} (c : LRUCache α) : List (CacheOp α) → LRUCache α
  | [] => c
  | op :: rest => runCacheOps (applyCacheOp c op) rest

/-! ### TTL cache — `storage/cache.py`, class `LocalCache`

Two plain dicts `self._cache` and `self._ttl`, plus `default_ttl`. -/

/-- State of `LocalCache`. -/
structure LocalCache (α : Type) : Type where
  _cache : List (String × α)
  _ttl : List (String × ℚ)
  default_ttl : ℚ
deriving DecidableEq, Repr

namespace LocalCache

/-- Model of `LocalCache.delete(key)`: returns `True` iff the key was present. -/
def delete {α : Type} (c : LocalCache α) (key : String) : Bool × LocalCache α :=
  if (lookupKey c._cache key).isSome then
    (true, { c with _cache := eraseKey c._cache key, _ttl := eraseKey c._ttl key })
  else
    (false, c)

/-- Model of `LocalCache.get(key)` at wall-clock time `now`: absent or expired gives
`None`; an expired entry is removed via `self.delete(key)`. -/
def get {α : Type} (c : LocalCache α) (now : ℚ) (key : String) :
    Option α × LocalCache α :=
  match lookupKey c._cache key with
  | none => (none, c)
  | some v =>
      if now > ((lookupKey c._ttl key).getD 0) then
        (none, (delete c key).2)
      else
        (some v, c)

/-- Model of `LocalCache.set(key, value, ttl)` at wall-clock time `now`. -/
def set {α : Type} (c : LocalCache α) (now : ℚ) (key : String) (value : α)
    (ttl : Option ℚ) : LocalCache α :=
  let current_ttl := ttl.getD c.default_ttl
  { c with
    _cache := setKey c._cache key value
    _ttl := setKey c._ttl key (now + current_ttl) }

end LocalCache

/-! ### Sliding-window rate limiter — `sc/api/knowledge.py` and
`sc/services/flowshield.py`

`rate_tracker: Dict[str, List[float]] = defaultdict(list)`. -/

/-- The per-IP timestamp tracker. -/
abbrev RateTracker := List (String × List ℚ)

/-- Constant `REQUEST_WINDOW_SECONDS = 60`. -/
def REQUEST_WINDOW_SECONDS : ℚ := 60

/-- Constant `flowshield.MAX_REQUESTS_PER_WINDOW = 100`, the module-level threshold. -/
def MAX_REQUESTS_PER_WINDOW : Nat := 100

/-- Model of `flowshield.is_under_attack(ip, request_count)`, with the module-level
threshold constant made an explicit parameter. -/
def is_under_attack (threshold : Nat) (ip : String) (request_count : Nat) : Bool :=
  request_count > threshold

/-- Model of `get_request_count_for_ip(ip)` at time `now`: filters the IP's
timestamps to `current_time - t < REQUEST_WINDOW_SECONDS`, stores the
filtered list back, returns its length.  (`rate_tracker[ip]` on an absent
key materialises an empty list, per `defaultdict`.) -/
def get_request_count_for_ip (rt : RateTracker) (now : ℚ) (ip : String) :
    Nat × RateTracker :=
  let events := (lookupKey rt ip).getD []
  let pruned := events.filter (fun t => now - t < REQUEST_WINDOW_SECONDS)
  (pruned.length, setKey rt ip pruned)

/-- Model of `record_request_for_ip(ip)` at time `now`: appends `now` to the list. -/
def record_request_for_ip (rt : RateTracker) (now : ℚ) (ip : String) :
    RateTracker :=
  setKey rt ip (((lookupKey rt ip).getD []) ++ [now])

/-- The rate-limiting block of `create_knowledge_unit`: count, check
`is_under_attack(ip, count + 1)`, and record the request in either branch
(denied attempts are recorded too).  Returns `true` for deny (HTTP 429). -/
def record_and_check (threshold : Nat) (rt : RateTracker) (now : ℚ)
    (ip : String) : Bool × RateTracker :=
  let counted := get_request_count_for_ip rt now ip
  if is_under_attack threshold ip (counted.1 + 1) then
    (true, record_request_for_ip counted.2 now ip)
  else
    (false, record_request_for_ip counted.2 now ip)

/-- Run `record_and_check` at each time in `ts`, collecting deny flags. -/
def runLimiter (threshold : Nat) (rt : RateTracker) (ip : String) :
    List ℚ → List Bool × RateTracker
  | [] => ([], rt)
  | now :: rest =>
      let step := record_and_check threshold rt now ip
      let tail := runLimiter threshold step.2 ip rest
      (step.1 :: tail.1, tail.2)

/-- The number of in-window events recorded for `ip`, as observed at `now`. -/
def inWindowCount (rt : RateTracker) (now : ℚ) (ip : String) : Nat :=
  (((lookupKey rt ip).getD []).filter
    (fun t => now - t < REQUEST_WINDOW_SECONDS)).length

/-! ### Lemmas on the ordered-dictionary helpers -/

theorem keysOf_nil {β : Type} : keysOf ([] : List (String × β)) = [] := rfl

theorem keysOf_cons {β : Type} (k : String) (v : β) (l : List (String × β)) :
    keysOf ((k, v) :: l) = k :: keysOf l := rfl

theorem keysOf_append {β : Type} (l1 l2 : List (String × β)) :
    keysOf (l1 ++ l2) = keysOf l1 ++ keysOf l2 := by
  simp [keysOf]

theorem lookupKey_eq_none_iff {β : Type} (l : List (String × β)) (k : String) :
    lookupKey l k = none ↔ k ∉ keysOf l := by
  induction l with
  | nil => simp [lookupKey, keysOf_nil]
  | cons p rest ih =>
      obtain ⟨k0, v0⟩ := p
      rw [keysOf_cons]
      by_cases h : k0 = k
      · subst h
        simp [lookupKey]
      · rw [lookupKey, if_neg h, List.mem_cons]
        simp only [ih]
        constructor
        · intro hn hc
          rcases hc with hc | hc
          · exact h hc.symm
          · exact hn hc
        · intro hn
          exact fun hc => hn (Or.inr hc)

theorem lookupKey_mem {β : Type} {l : List (String × β)} {k : String} {v : β}
    (h : lookupKey l k = some v) : (k, v) ∈ l := by
  induction l with
  | nil => simp [lookupKey] at h
  | cons p rest ih =>
      obtain ⟨k0, v0⟩ := p
      by_cases hk : k0 = k
      · subst hk
        simp [lookupKey] at h
        subst h
        exact List.mem_cons_self _ _
      · simp [lookupKey, hk] at h
        exact List.mem_cons_of_mem _ (ih h)

theorem eraseKey_sublist {β : Type} (l : List (String × β)) (k : String) :
    (eraseKey l k).Sublist l := by
  induction l with
  | nil => simp [eraseKey]
  | cons p rest ih =>
      obtain ⟨k0, v0⟩ := p
      by_cases h : k0 = k
      · simp [eraseKey, h]
      · simp only [eraseKey, if_neg h, List.cons_sublist_cons]
        exact ih

theorem keysOf_eraseKey_nodup {β : Type} {l : List (String × β)} (k : String)
    (h : (keysOf l).Nodup) : (keysOf (eraseKey l k)).Nodup :=
  h.sublist ((eraseKey_sublist l k).map Prod.fst)

theorem not_mem_keys_eraseKey {β : Type} {l : List (String × β)} {k : String}
    (h : (keysOf l).Nodup) : k ∉ keysOf (eraseKey l k) := by
  induction l with
  | nil => simp [eraseKey, keysOf_nil]
  | cons p rest ih =>
      obtain ⟨k0, v0⟩ := p
      rw [keysOf_cons] at h
      rw [List.nodup_cons] at h
      by_cases hk : k0 = k
      · subst hk
        simp only [eraseKey, if_pos rfl]
        exact h.1
      · simp only [eraseKey, if_neg hk, keysOf_cons, List.mem_cons]
        intro hc
        rcases hc with hc | hc
        · exact hk hc.symm
        · exact ih h.2 hc

theorem length_eraseKey_present {β : Type} {l : List (String × β)} {k : String}
    {v : β} (h : lookupKey l k = some v) :
    (eraseKey l k).length + 1 = l.length := by
  induction l with
  | nil => simp [lookupKey] at h
  | cons p rest ih =>
      obtain ⟨k0, v0⟩ := p
      by_cases hk : k0 = k
      · simp [eraseKey, hk]
      · simp [lookupKey, hk] at h
        simp [eraseKey, hk, ih h]

theorem eraseKey_of_not_mem {β : Type} {l : List (String × β)} {k : String}
    (h : k ∉ keysOf l) : eraseKey l k = l := by
  induction l with
  | nil => simp [eraseKey]
  | cons p rest ih =>
      obtain ⟨k0, v0⟩ := p
      rw [keysOf_cons, List.mem_cons] at h
      push_neg at h
      simp [eraseKey, Ne.symm h.1, ih h.2]

theorem lookupKey_append_of_none {β : Type} {l1 : List (String × β)}
    (l2 : List (String × β)) {k : String} (h : lookupKey l1 k = none) :
    lookupKey (l1 ++ l2) k = lookupKey l2 k := by
  induction l1 with
  | nil => simp
  | cons p rest ih =>
      obtain ⟨k0, v0⟩ := p
      by_cases hk : k0 = k
      · simp [lookupKey, hk] at h
      · simp [lookupKey, hk] at h ⊢
        exact ih h

theorem lookupKey_append_of_some {β : Type} {l1 : List (String × β)}
    (l2 : List (String × β)) {k : String} {v : β} (h : lookupKey l1 k = some v) :
    lookupKey (l1 ++ l2) k = some v := by
  induction l1 with
  | nil => simp [lookupKey] at h
  | cons p rest ih =>
      obtain ⟨k0, v0⟩ := p
      by_cases hk : k0 = k
      · simp [lookupKey, hk] at h ⊢
        exact h
      · simp [lookupKey, hk] at h ⊢
        exact ih h

theorem eraseKey_append_of_none {β : Type} {l1 : List (String × β)}
    (l2 : List (String × β)) {k : String} (h : lookupKey l1 k = none) :
    eraseKey (l1 ++ l2) k = l1 ++ eraseKey l2 k := by
  induction l1 with
  | nil => simp
  | cons p rest ih =>
      obtain ⟨k0, v0⟩ := p
      by_cases hk : k0 = k
      · simp [lookupKey, hk] at h
      · simp [lookupKey, hk] at h
        simp [eraseKey, hk, ih h]

theorem lookupKey_setKey_self {β : Type} (l : List (String × β)) (k : String)
    (v : β) : lookupKey (setKey l k v) k = some v := by
  induction l with
  | nil => simp [setKey, lookupKey]
  | cons p rest ih =>
      obtain ⟨k0, v0⟩ := p
      by_cases hk : k0 = k
      · simp [setKey, hk, lookupKey]
      · simp [setKey, hk, lookupKey, ih]

theorem lookupKey_setKey_ne {β : Type} (l : List (String × β)) {k k2 : String}
    (v : β) (h : k2 ≠ k) : lookupKey (setKey l k v) k2 = lookupKey l k2 := by
  induction l with
  | nil => simp [setKey, lookupKey, Ne.symm h]
  | cons p rest ih =>
      obtain ⟨k0, v0⟩ := p
      by_cases hk : k0 = k
      · subst hk
        simp [setKey, lookupKey, Ne.symm h]
      · simp [setKey, hk, lookupKey, ih]

theorem setKey_of_none {β : Type} {l : List (String × β)} {k : String}
    (v : β) (h : lookupKey l k = none) : setKey l k v = l ++ [(k, v)] := by
  induction l with
  | nil => simp [setKey]
  | cons p rest ih =>
      obtain ⟨k0, v0⟩ := p
      by_cases hk : k0 = k
      · simp [lookupKey, hk] at h
      · simp [lookupKey, hk] at h
        simp [setKey, hk, ih h]

theorem moveToEnd_append_self {α : Type} {l : List (String × LRUEntry α)}
    {k : String} (h : k ∉ keysOf l) (e : LRUEntry α) :
    moveToEnd (l ++ [(k, e)]) k = l ++ [(k, e)] := by
  have hnone : lookupKey l k = none := (lookupKey_eq_none_iff l k).mpr h
  unfold moveToEnd
  rw [lookupKey_append_of_none _ hnone]
  simp [lookupKey, eraseKey_append_of_none _ hnone, eraseKey, eraseKey_of_not_mem h]

/-! ### Lemmas on the knowledge-unit graph -/

theorem lookupKey_updateOrAppend_self (l : List (String × ℚ)) (b : String)
    (w : ℚ) : lookupKey (updateOrAppend l b w) b = some w := by
  induction l with
  | nil => simp [updateOrAppend, lookupKey]
  | cons p rest ih =>
      obtain ⟨t, w0⟩ := p
      by_cases ht : t = b
      · simp [updateOrAppend, ht, lookupKey]
      · simp [updateOrAppend, ht, lookupKey, ih]

theorem keysOf_updateOrAppend (l : List (String × ℚ)) (b : String) (w : ℚ) :
    keysOf (updateOrAppend l b w) = keysOf l
    ∨ keysOf (updateOrAppend l b w) = keysOf l ++ [b] ∧ b ∉ keysOf l := by
  induction l with
  | nil => right; simp [updateOrAppend, keysOf]
  | cons p rest ih =>
      obtain ⟨t, w0⟩ := p
      by_cases ht : t = b
      · left
        subst ht
        simp [updateOrAppend, keysOf_cons]
      · rcases ih with ih | ⟨ih, hb⟩
        · left
          simp [updateOrAppend, ht, keysOf_cons, ih]
        · right
          constructor
          · simp [updateOrAppend, ht, keysOf_cons, ih]
          · rw [keysOf_cons, List.mem_cons]
            push_neg
            exact ⟨Ne.symm ht, hb⟩

theorem nodup_keysOf_updateOrAppend {l : List (String × ℚ)} (b : String)
    (w : ℚ) (h : (keysOf l).Nodup) : (keysOf (updateOrAppend l b w)).Nodup := by
  rcases keysOf_updateOrAppend l b w with heq | ⟨heq, hb⟩
  · rw [heq]; exact h
  · rw [heq]
    rw [List.nodup_append]
    refine ⟨h, List.nodup_singleton b, ?_⟩
    intro a ha hb2
    rw [List.mem_singleton] at hb2
    subst hb2
    exact hb ha

theorem countP_key_le_one {l : List (String × ℚ)} {b : String}
    (h : (keysOf l).Nodup) : l.countP (fun p => p.1 = b) ≤ 1 := by
  induction l with
  | nil => simp
  | cons p rest ih =>
      obtain ⟨t, w0⟩ := p
      rw [keysOf_cons, List.nodup_cons] at h
      by_cases ht : t = b
      · subst ht
        rw [List.countP_cons]
        simp only [decide_eq_true_eq]
        have hz : rest.countP (fun p => p.1 = t) = 0 := by
          rw [List.countP_eq_zero]
          intro a ha
          simp only [decide_eq_true_eq]
          intro hfst
          exact h.1 (by
            have : a.1 ∈ keysOf rest := List.mem_map_of_mem Prod.fst ha
            rw [hfst] at this
            exact this)
        simp [hz]
      · rw [List.countP_cons]
        simp only [decide_eq_true_eq, ht, if_false]
        simpa using ih h.2

theorem countP_key_pos {l : List (String × ℚ)} {b : String} {w : ℚ}
    (h : lookupKey l b = some w) : 1 ≤ l.countP (fun p => p.1 = b) := by
  have hmem : (b, w) ∈ l := lookupKey_mem h
  rw [Nat.succ_le_iff]
  exact List.countP_pos_iff.mpr ⟨(b, w), hmem, by simp⟩

/-- The graph well-formedness invariant: every adjacency list has pairwise
distinct targets. -/
def GraphWF (g : KuLinks) : Prop :=
  ∀ a l, lookupKey g a = some l → (keysOf l).Nodup

theorem graphWF_nil : GraphWF [] := by
  intro a l h
  simp [lookupKey] at h

/-- What `add_link` does on a valid weight: the adjacency list of the source
becomes `updateOrAppend` of the old one (an absent source reads as `[]`). -/
theorem add_link_lookup_self (g : KuLinks) (a b : String) {w : ℚ}
    (hw : 0 ≤ w ∧ w ≤ 1) :
    (add_link g a b w).1 = true
    ∧ lookupKey (add_link g a b w).2 a
        = some (updateOrAppend ((lookupKey g a).getD []) b w) := by
  unfold add_link
  rw [if_neg (by simpa using hw)]
  refine ⟨rfl, ?_⟩
  cases hg : lookupKey g a with
  | none =>
      simp only [hg, Option.isNone_none, if_true]
      rw [lookupKey_append_of_none _ hg]
      simp [lookupKey, lookupKey_setKey_self,
        lookupKey_append_of_none [(a, ([] : List (String × ℚ)))] hg]
  | some l =>
      simp only [hg, Option.isNone_some, Bool.false_eq_true, if_false]
      simp [lookupKey_setKey_self]

theorem add_link_lookup_ne (g : KuLinks) {a x : String} (b : String) (w : ℚ)
    (hx : x ≠ a) :
    lookupKey (add_link g a b w).2 x = lookupKey g x := by
  unfold add_link
  by_cases hw : ¬ (0 ≤ w ∧ w ≤ 1)
  · rw [if_pos hw]
  · rw [if_neg hw]
    simp only
    rw [lookupKey_setKey_ne _ _ hx]
    cases hg : lookupKey g a with
    | none =>
        simp only [hg, Option.isNone_none, if_true]
        cases hgx : lookupKey g x with
        | none =>
            rw [lookupKey_append_of_none _ hgx]
            simp [lookupKey, Ne.symm hx]
        | some lx => rw [lookupKey_append_of_some _ hgx]
    | some l => simp [hg]

theorem graphWF_add_link {g : KuLinks} (a b : String) (w : ℚ)
    (h : GraphWF g) : GraphWF (add_link g a b w).2 := by
  intro x lx hlx
  by_cases hx : x = a
  · subst hx
    by_cases hw : 0 ≤ w ∧ w ≤ 1
    · rw [(add_link_lookup_self g x b hw).2] at hlx
      cases hlx
      cases hg : lookupKey g x with
      | none =>
          simp only [hg, Option.getD_none]
          exact nodup_keysOf_updateOrAppend b w (by simp [keysOf_nil])
      | some l =>
          simp only [hg, Option.getD_some]
          exact nodup_keysOf_updateOrAppend b w (h x l hg)
    · unfold add_link at hlx
      rw [if_pos (by simpa using hw)] at hlx
      exact h x lx hlx
  · rw [add_link_lookup_ne g b w hx] at hlx
    exact h x lx hlx

theorem graphWF_runAddLinks {g : KuLinks}
    (calls : List (String × String × ℚ)) (h : GraphWF g) :
    GraphWF (runAddLinks g calls) := by
  induction calls generalizing g with
  | nil => exact h
  | cons c rest ih =>
      obtain ⟨f, t, w⟩ := c
      exact ih (graphWF_add_link f t w h)

theorem countEdges_le_one_of_wf {g : KuLinks} (a b : String)
    (h : GraphWF g) : countEdges g a b ≤ 1 := by
  unfold countEdges
  cases hg : lookupKey g a with
  | none => simp
  | some l =>
      simp only [Option.getD_some]
      exact countP_key_le_one (h a l hg)

theorem link_knowledge_units_lookup_ne (g : KuLinks) {f x : String}
    (t : String) (w : ℚ) (hx : x ≠ f) :
    lookupKey (link_knowledge_units g f t w).2 x = lookupKey g x := by
  unfold link_knowledge_units
  by_cases hft : f = t
  · rw [if_pos hft]
  · rw [if_neg hft]
    simp only
    by_cases hs : (add_link g f t w).1
    · rw [if_pos hs]
      exact add_link_lookup_ne g t w hx
    · rw [if_neg hs]
      exact add_link_lookup_ne g t w hx

theorem lookup_runLinkCalls_not_source (g : KuLinks)
    (calls : List (String × String × ℚ)) (x : String)
    (h : x ∉ calls.map (fun c => c.1)) :
    lookupKey (runLinkCalls g calls) x = lookupKey g x := by
  induction calls generalizing g with
  | nil => rfl
  | cons c rest ih =>
      obtain ⟨f, t, w⟩ := c
      rw [List.map_cons, List.mem_cons] at h
      push_neg at h
      show lookupKey (runLinkCalls (link_knowledge_units g f t w).2 rest) x = _
      rw [ih _ h.2, link_knowledge_units_lookup_ne g t w h.1]

/-! ### Lemmas on the rate limiter -/

theorem record_and_check_events (threshold : Nat) (rt : RateTracker)
    (now : ℚ) (ip : String) :
    lookupKey (record_and_check threshold rt now ip).2 ip
      = some ((((lookupKey rt ip).getD []).filter
          (fun t => now - t < REQUEST_WINDOW_SECONDS)) ++ [now]) := by
  unfold record_and_check get_request_count_for_ip record_request_for_ip
    is_under_attack
  by_cases hd :
      ((((lookupKey rt ip).getD []).filter
          (fun t => now - t < REQUEST_WINDOW_SECONDS)).length + 1 > threshold)
  all_goals simp [hd, lookupKey_setKey_self]

theorem record_and_check_deny (threshold : Nat) (rt : RateTracker)
    (now : ℚ) (ip : String) :
    (record_and_check threshold rt now ip).1
      = decide ((((lookupKey rt ip).getD []).filter
          (fun t => now - t < REQUEST_WINDOW_SECONDS)).length + 1 > threshold) := by
  unfold record_and_check get_request_count_for_ip is_under_attack
  by_cases hd :
      ((((lookupKey rt ip).getD []).filter
          (fun t => now - t < REQUEST_WINDOW_SECONDS)).length + 1 > threshold)
  · simp [hd]
  · simp [hd]

/-! ### Lemmas on the LRU cache -/

/-- The representation invariant of `InMemoryLRUCache`: the `OrderedDict`
has pairwise distinct keys and at most `max_size` entries. -/
def CacheInv {α : Type} (c : LRUCache α) : Prop :=
  (keysOf c.cache).Nodup ∧ c.cache.length ≤ c.max_size

theorem moveToEnd_of_present {α : Type} {l : List (String × LRUEntry α)}
    {key : String} {e : LRUEntry α} (h : lookupKey l key = some e) :
    moveToEnd l key = eraseKey l key ++ [(key, e)] := by
  unfold moveToEnd
  rw [h]

theorem setPre_structure {α : Type} (c : LRUCache α) (now : ℚ) (key : String)
    (value : α) (ttl : Option ℚ) (h : (keysOf c.cache).Nodup) :
    ∃ c1, LRUCache.setPre c now key value ttl
        = c1 ++ [(key, ⟨value, ttl, ttl.map (fun t => now + t)⟩)]
      ∧ key ∉ keysOf c1 ∧ (keysOf c1).Nodup ∧ c1.length ≤ c.cache.length := by
  unfold LRUCache.setPre
  by_cases hp : (lookupKey c.cache key).isSome = true
  · refine ⟨eraseKey c.cache key, ?_, not_mem_keys_eraseKey h,
      keysOf_eraseKey_nodup key h, (eraseKey_sublist _ _).length_le⟩
    simp only [hp, if_true]
    exact moveToEnd_append_self (not_mem_keys_eraseKey h) _
  · have hnone : lookupKey c.cache key = none := by
      cases hl : lookupKey c.cache key with
      | none => rfl
      | some e => rw [hl] at hp; simp at hp
    have hkey : key ∉ keysOf c.cache := (lookupKey_eq_none_iff _ _).mp hnone
    refine ⟨c.cache, ?_, hkey, h, le_refl _⟩
    simp only [hp, if_false]
    exact moveToEnd_append_self hkey _

theorem cacheInv_set {α : Type} {c : LRUCache α} (now : ℚ) (key : String)
    (value : α) (ttl : Option ℚ) (h : CacheInv c) :
    CacheInv (LRUCache.set c now key value ttl) := by
  obtain ⟨hn, hlen⟩ := h
  obtain ⟨c1, hpre, hkey, hc1n, hc1l⟩ := setPre_structure c now key value ttl hn
  have hnodup : (keysOf (LRUCache.setPre c now key value ttl)).Nodup := by
    rw [hpre, keysOf_append, List.nodup_append]
    refine ⟨hc1n, by simp [keysOf], ?_⟩
    intro a ha hb
    simp [keysOf] at hb
    subst hb
    exact hkey ha
  have hlenpre : (LRUCache.setPre c now key value ttl).length ≤ c.max_size + 1 := by
    rw [hpre, List.length_append]
    simpa using Nat.add_le_add_right (le_trans hc1l hlen) 1
  unfold LRUCache.set
  by_cases hov : (LRUCache.setPre c now key value ttl).length > c.max_size
  · simp only [hov, if_true]
    constructor
    · exact hnodup.sublist ((List.tail_sublist _).map Prod.fst)
    · show ((LRUCache.setPre c now key value ttl).tail).length ≤ c.max_size
      rw [List.length_tail]
      omega
  · simp only [hov, if_false]
    constructor
    · exact hnodup
    · show (LRUCache.setPre c now key value ttl).length ≤ c.max_size
      omega

theorem cacheInv_get {α : Type} {c : LRUCache α} (now : ℚ) (key : String)
    (h : CacheInv c) : CacheInv (LRUCache.get c now key).2 := by
  obtain ⟨hn, hlen⟩ := h
  unfold LRUCache.get
  cases hl : lookupKey c.cache key with
  | none => exact ⟨hn, hlen⟩
  | some e =>
      by_cases hexp : lruExpired e now = true
      · simp only [hexp, if_true]
        refine ⟨keysOf_eraseKey_nodup key hn, ?_⟩
        exact le_trans (eraseKey_sublist _ _).length_le hlen
      · rw [Bool.not_eq_true] at hexp
        simp only [hexp, Bool.false_eq_true, if_false]
        rw [moveToEnd_of_present hl]
        constructor
        · show (keysOf (eraseKey c.cache key ++ [(key, e)])).Nodup
          rw [keysOf_append, List.nodup_append]
          refine ⟨keysOf_eraseKey_nodup key hn, by simp [keysOf], ?_⟩
          intro a ha hb
          simp [keysOf] at hb
          subst hb
          exact not_mem_keys_eraseKey hn ha
        · show (eraseKey c.cache key ++ [(key, e)]).length ≤ c.max_size
          simp only [List.length_append, List.length_singleton]
          rw [length_eraseKey_present hl]
          exact hlen

theorem cacheInv_applyOp {α : Type} {c : LRUCache α} (op : CacheOp α)
    (h : CacheInv c) : CacheInv (applyCacheOp c op) := by
  cases op with
  | get now key => exact cacheInv_get now key h
  | set now key v ttl => exact cacheInv_set now key v ttl h
  | delete key =>
      obtain ⟨hn, hlen⟩ := h
      unfold applyCacheOp LRUCache.delete
      by_cases hp : (lookupKey c.cache key).isSome = true
      · simp only [hp, if_true]
        exact ⟨keysOf_eraseKey_nodup key hn,
          le_trans (eraseKey_sublist _ _).length_le hlen⟩
      · simp only [hp, if_false]
        exact ⟨hn, hlen⟩
  | clear =>
      exact ⟨by simp [applyCacheOp, LRUCache.clear, keysOf],
        by simp [applyCacheOp, LRUCache.clear]⟩

theorem maxSize_get {α : Type} (c : LRUCache α) (now : ℚ) (key : String) :
    (LRUCache.get c now key).2.max_size = c.max_size := by
  unfold LRUCache.get
  cases lookupKey c.cache key with
  | none => rfl
  | some e =>
      dsimp only
      split
      · rfl
      · rfl

theorem maxSize_set {α : Type} (c : LRUCache α) (now : ℚ) (key : String)
    (v : α) (ttl : Option ℚ) :
    (LRUCache.set c now key v ttl).max_size = c.max_size := by
  unfold LRUCache.set
  dsimp only
  split
  · rfl
  · rfl

theorem maxSize_delete {α : Type} (c : LRUCache α) (key : String) :
    (LRUCache.delete c key).2.max_size = c.max_size := by
  unfold LRUCache.delete
  split
  · rfl
  · rfl

theorem maxSize_applyOp {α : Type} (c : LRUCache α) (op : CacheOp α) :
    (applyCacheOp c op).max_size = c.max_size := by
  cases op with
  | get now key => exact maxSize_get c now key
  | set now key v ttl => exact maxSize_set c now key v ttl
  | delete key => exact maxSize_delete c key
  | clear => rfl

theorem cacheInv_runOps {α : Type} {c : LRUCache α} (ops : List (CacheOp α))
    (h : CacheInv c) :
    CacheInv (runCacheOps c ops) ∧ (runCacheOps c ops).max_size = c.max_size := by
  induction ops generalizing c with
  | nil => exact ⟨h, rfl⟩
  | cons op rest ih =>
      obtain ⟨h1, h2⟩ := ih (cacheInv_applyOp op h)
      refine ⟨h1, ?_⟩
      show (runCacheOps (applyCacheOp c op) rest).max_size = c.max_size
      rw [h2, maxSize_applyOp]

theorem set_evicts_head {α : Type} {c : LRUCache α} (now : ℚ) (key : String)
    (value : α) (ttl : Option ℚ) (hn : (keysOf c.cache).Nodup)
    (hm : 1 ≤ c.max_size)
    (hover : (LRUCache.setPre c now key value ttl).length > c.max_size) :
    ∃ ev rest, LRUCache.setPre c now key value ttl = ev :: rest
      ∧ (LRUCache.set c now key value ttl).cache = rest ∧ ev.1 ≠ key := by
  obtain ⟨c1, hpre, hkey, _, _⟩ := setPre_structure c now key value ttl hn
  cases c1 with
  | nil =>
      rw [hpre] at hover
      simp at hover
      omega
  | cons p c1t =>
      refine ⟨p, c1t ++ [(key, ⟨value, ttl, ttl.map (fun t => now + t)⟩)],
        by rw [hpre]; rfl, ?_, ?_⟩
      · unfold LRUCache.set
        simp only [hover, if_true]
        rw [hpre]
        rfl
      · intro hk
        apply hkey
        rw [keysOf_cons] at *
        rw [hpre] at *
        exact hk ▸ List.mem_cons_self _ _

/-! ### Claim theorems -/

/-- Claim C3: for every graph state, node id `x` and weight `w`, the exposed
link operation `link_knowledge_units` with `from_ku_id = to_ku_id = x`
reports an HTTP 400 rejection and leaves the graph unchanged: self-loops
are never inserted. -/
theorem self_loop_rejected (g : KuLinks) (x : String) (w : ℚ) :
    (link_knowledge_units g x x w).1
        = ApiResult.httpError 400 "Cannot link a Knowledge Unit to itself."
    ∧ ((link_knowledge_units g x x w).1).isError = true
    ∧ (link_knowledge_units g x x w).2 = g := by
  unfold link_knowledge_units
  simp [ApiResult.isError]

/-- Claim C4: for distinct `from_id` and `to_id`, `add_link` succeeds (returns
`True`) iff `0.0 <= w <= 1.0`; outside that range it returns the explicit
negative result `False` (no exception) and the whole graph state is
unchanged. -/
theorem add_link_weight_domain (g : KuLinks) (a b : String) (w : ℚ)
    (hab : a ≠ b) :
    ((add_link g a b w).1 = true ↔ (0 ≤ w ∧ w ≤ 1))
    ∧ (¬ (0 ≤ w ∧ w ≤ 1) → add_link g a b w = (false, g)) := by
  constructor
  · constructor
    · intro h
      by_contra hw
      unfold add_link at h
      rw [if_pos (by simpa using hw)] at h
      simp at h
    · intro hw
      exact (add_link_lookup_self g a b hw).1
  · intro hw
    unfold add_link
    rw [if_pos (by simpa using hw)]

/-- Claim C4 witness: the concrete rejection `add_link(a, b, 1.5)` on the
empty graph. -/
theorem add_link_weight_domain_witness :
    ("a" : String) ≠ "b"
    ∧ ¬ ((0:ℚ) ≤ 3/2 ∧ (3/2:ℚ) ≤ 1)
    ∧ add_link [] "a" "b" (3/2) = (false, []) := by
  refine ⟨by decide, by norm_num, ?_⟩
  exact (add_link_weight_domain [] "a" "b" (3/2) (by decide)).2 (by norm_num)

/-- Claim C5: in every graph reachable by `add_link` calls from the empty
graph there is at most one edge per ordered pair `(a, b)`; and after a
second upsert for the same pair with valid weights, the pair has exactly
one edge carrying the most recently given weight. -/
theorem edge_upsert_unique (calls : List (String × String × ℚ))
    (a b : String) (w1 w2 : ℚ) (h1 : 0 ≤ w1 ∧ w1 ≤ 1) (h2 : 0 ≤ w2 ∧ w2 ≤ 1) :
    countEdges (runAddLinks [] calls) a b ≤ 1
    ∧ countEdges
        (add_link (add_link (runAddLinks [] calls) a b w1).2 a b w2).2 a b = 1
    ∧ lookupKey
        ((lookupKey
          (add_link (add_link (runAddLinks [] calls) a b w1).2 a b w2).2 a).getD [])
        b = some w2 := by
  have hwf : GraphWF (runAddLinks [] calls) := graphWF_runAddLinks calls graphWF_nil
  have hwf1 : GraphWF (add_link (runAddLinks [] calls) a b w1).2 :=
    graphWF_add_link a b w1 hwf
  have hwf2 : GraphWF (add_link (add_link (runAddLinks [] calls) a b w1).2 a b w2).2 :=
    graphWF_add_link a b w2 hwf1
  have hlk2 := (add_link_lookup_self (add_link (runAddLinks [] calls) a b w1).2 a b h2).2
  have hlkb : lookupKey
      ((lookupKey (add_link (add_link (runAddLinks [] calls) a b w1).2 a b w2).2 a).getD [])
      b = some w2 := by
    rw [hlk2]
    simp [lookupKey_updateOrAppend_self]
  refine ⟨countEdges_le_one_of_wf a b hwf, ?_, hlkb⟩
  have hle : countEdges
      (add_link (add_link (runAddLinks [] calls) a b w1).2 a b w2).2 a b ≤ 1 :=
    countEdges_le_one_of_wf a b hwf2
  have hge : 1 ≤ countEdges
      (add_link (add_link (runAddLinks [] calls) a b w1).2 a b w2).2 a b := by
    unfold countEdges
    cases hlk : lookupKey
        (add_link (add_link (runAddLinks [] calls) a b w1).2 a b w2).2 a with
    | none =>
        rw [hlk] at hlkb
        simp [lookupKey] at hlkb
    | some l =>
        rw [hlk] at hlkb
        simp only [Option.getD_some] at hlkb ⊢
        exact countP_key_pos hlkb
  omega

/-- Claim C5 witness: `add_link("a","b",0.3)` then `add_link("a","b",0.9)`
leaves exactly one edge `a -> b`, with weight `0.9`. -/
theorem edge_upsert_unique_witness :
    ((0:ℚ) ≤ 3/10 ∧ (3/10:ℚ) ≤ 1) ∧ ((0:ℚ) ≤ 9/10 ∧ (9/10:ℚ) ≤ 1)
    ∧ countEdges (add_link (add_link (runAddLinks [] []) "a" "b" (3/10)).2
        "a" "b" (9/10)).2 "a" "b" = 1
    ∧ lookupKey ((lookupKey (add_link (add_link (runAddLinks [] []) "a" "b"
        (3/10)).2 "a" "b" (9/10)).2 "a").getD []) "b" = some (9/10) := by
  have h := edge_upsert_unique [] "a" "b" (3/10) (9/10)
    (by norm_num) (by norm_num)
  exact ⟨by norm_num, by norm_num, h.2.1, h.2.2⟩

/-- Claim C8: for every sequence of exposed link calls starting from the empty
graph and every node id `x` that was never the source of any call, the
exposed `get_outgoing_links` returns the empty collection (inside its
normal, non-error response), not an error and not a null marker. -/
theorem absent_source_empty_links (calls : List (String × String × ℚ))
    (x : String) (h : x ∉ calls.map (fun c => c.1)) :
    get_outgoing_links (runLinkCalls [] calls) x = (x, []) := by
  unfold get_outgoing_links get_links_from
  rw [lookup_runLinkCalls_not_source [] calls x h]
  rfl

/-- Claim C8 witness: after linking `a -> b`, the node `z` (never a source)
yields the empty link list. -/
theorem absent_source_empty_links_witness :
    ("z" : String) ∉ ([("a", "b", (1:ℚ)/2)].map (fun c => c.1))
    ∧ get_outgoing_links (runLinkCalls [] [("a", "b", (1:ℚ)/2)]) "z"
        = ("z", []) := by
  refine ⟨by decide, ?_⟩
  exact absent_source_empty_links [("a", "b", (1:ℚ)/2)] "z" (by decide)

/-- Claim C2: for every threshold, tracker state, time and key, the composite
count/check/record pipeline of `create_knowledge_unit` records the event
timestamp regardless of the outcome (the stored list becomes the pruned
in-window events plus `now`), and denies exactly when the in-window count
including the just-recorded event exceeds the threshold; with threshold 3,
four calls at times 0, 1, 2, 3 give admit, admit, admit, deny. -/
theorem limiter_record_and_deny (threshold : Nat) (rt : RateTracker)
    (now : ℚ) (ip : String) :
    (lookupKey (record_and_check threshold rt now ip).2 ip
        = some ((((lookupKey rt ip).getD []).filter
            (fun t => now - t < REQUEST_WINDOW_SECONDS)) ++ [now]))
    ∧ ((record_and_check threshold rt now ip).1
        = decide (inWindowCount (record_and_check threshold rt now ip).2 now ip
            > threshold))
    ∧ (∀ ip2 : String,
        (runLimiter 3 [] ip2 [0, 1, 2, 3]).1 = [false, false, false, true]) := by
  refine ⟨record_and_check_events threshold rt now ip, ?_, ?_⟩
  · rw [record_and_check_deny]
    unfold inWindowCount
    rw [record_and_check_events threshold rt now ip]
    have hnow : now - now < REQUEST_WINDOW_SECONDS := by
      unfold REQUEST_WINDOW_SECONDS
      norm_num
    have hd : decide (now - now < REQUEST_WINDOW_SECONDS) = true :=
      decide_eq_true hnow
    have h60 : (0:ℚ) < REQUEST_WINDOW_SECONDS := by
      unfold REQUEST_WINDOW_SECONDS
      norm_num
    simp [List.filter_append, List.filter_filter, List.filter_singleton, hd, h60]
  · intro ip2
    have e0 : record_and_check 3 [] 0 ip2 = (false, [(ip2, [0])]) := by
      norm_num [record_and_check, get_request_count_for_ip,
        record_request_for_ip, is_under_attack, lookupKey, setKey]
    have e1 : record_and_check 3 [(ip2, [0])] 1 ip2 = (false, [(ip2, [0, 1])]) := by
      norm_num [record_and_check, get_request_count_for_ip,
        record_request_for_ip, is_under_attack, lookupKey, setKey,
        REQUEST_WINDOW_SECONDS, List.filter]
    have e2 : record_and_check 3 [(ip2, [0, 1])] 2 ip2
        = (false, [(ip2, [0, 1, 2])]) := by
      norm_num [record_and_check, get_request_count_for_ip,
        record_request_for_ip, is_under_attack, lookupKey, setKey,
        REQUEST_WINDOW_SECONDS, List.filter]
    have e3 : record_and_check 3 [(ip2, [0, 1, 2])] 3 ip2
        = (true, [(ip2, [0, 1, 2, 3])]) := by
      norm_num [record_and_check, get_request_count_for_ip,
        record_request_for_ip, is_under_attack, lookupKey, setKey,
        REQUEST_WINDOW_SECONDS, List.filter]
    simp [runLimiter, e0, e1, e2, e3]

/-- Claim C9: after any count access or any record-and-check access at time
`now`, the key's stored event list holds no timestamp older than
`now - 60`; and an absent key acts as a key with zero prior events: its
count is 0 and the access just materialises an empty list. -/
theorem limiter_prunes_and_absent_key (rt : RateTracker) (now : ℚ)
    (ip : String) :
    (∀ t ∈ (lookupKey (get_request_count_for_ip rt now ip).2 ip).getD [],
        ¬ t < now - REQUEST_WINDOW_SECONDS)
    ∧ (∀ threshold,
        ∀ t ∈ (lookupKey (record_and_check threshold rt now ip).2 ip).getD [],
          ¬ t < now - REQUEST_WINDOW_SECONDS)
    ∧ (lookupKey rt ip = none →
        get_request_count_for_ip rt now ip = (0, rt ++ [(ip, [])])) := by
  refine ⟨?_, ?_, ?_⟩
  · intro t ht
    unfold get_request_count_for_ip at ht
    simp only [lookupKey_setKey_self, Option.getD_some, List.mem_filter,
      decide_eq_true_eq] at ht
    have := ht.2
    intro hlt
    have : now - t < REQUEST_WINDOW_SECONDS := ht.2
    linarith
  · intro threshold t ht
    rw [record_and_check_events threshold rt now ip] at ht
    simp only [Option.getD_some, List.mem_append, List.mem_filter,
      List.mem_singleton, decide_eq_true_eq] at ht
    rcases ht with ⟨_, hwin⟩ | hteq
    · intro hlt
      linarith
    · subst hteq
      intro hlt
      have hwpos : (0:ℚ) < REQUEST_WINDOW_SECONDS := by
        unfold REQUEST_WINDOW_SECONDS
        norm_num
      linarith
  · intro hnone
    unfold get_request_count_for_ip
    rw [hnone]
    simp only [Option.getD_none, List.filter_nil, List.length_nil]
    rw [setKey_of_none _ hnone]

/-- Claim C9 witness: a tracker holding one in-window event (`t = 10`,
observed at `now = 50`) keeps it and it is not stale; an absent key
(`"b"`) counts as zero events. -/
theorem limiter_prunes_and_absent_key_witness :
    ((10:ℚ) ∈ (lookupKey
        (get_request_count_for_ip [("a", [10])] 50 "a").2 "a").getD []
      ∧ ¬ (10:ℚ) < 50 - REQUEST_WINDOW_SECONDS)
    ∧ (lookupKey ([] : RateTracker) "b" = none
      ∧ get_request_count_for_ip [] 50 "b" = (0, [("b", [])])) := by
  have hmem : (10:ℚ) ∈ (lookupKey
      (get_request_count_for_ip [("a", [10])] 50 "a").2 "a").getD [] := by
    norm_num [get_request_count_for_ip, lookupKey, setKey,
      REQUEST_WINDOW_SECONDS, List.filter]
  constructor
  · exact ⟨hmem, (limiter_prunes_and_absent_key [("a", [10])] 50 "a").1 10 hmem⟩
  · refine ⟨rfl, ?_⟩
    exact (limiter_prunes_and_absent_key [] 50 "b").2.2 rfl

/-- Claim C1: every cache built by the constructor, after any sequence of
get/set/delete/clear operations, holds at most `max_size` entries; and
whenever a `set` makes the post-insertion entry count exceed `max_size`,
exactly one entry is evicted — the head of the recency order (the
least-recently-used entry) — and it is never the entry just inserted. -/
theorem lru_capacity_and_eviction {α : Type} (ms : Int) (st : LRUCache α)
    (hinit : LRUCache.init α ms = Except.ok st) (ops : List (CacheOp α)) :
    (runCacheOps st ops).cache.length ≤ st.max_size
    ∧ ∀ now key value ttl,
        (LRUCache.setPre (runCacheOps st ops) now key value ttl).length
            > (runCacheOps st ops).max_size →
        ∃ ev rest,
          LRUCache.setPre (runCacheOps st ops) now key value ttl = ev :: rest
          ∧ (LRUCache.set (runCacheOps st ops) now key value ttl).cache = rest
          ∧ ev.1 ≠ key := by
  have hms : ¬ ms ≤ 0 ∧ st = ⟨[], ms.toNat⟩ := by
    unfold LRUCache.init at hinit
    by_cases h : ms ≤ 0
    · rw [if_pos h] at hinit
      exact absurd hinit (by simp)
    · rw [if_neg h] at hinit
      injection hinit with h2
      exact ⟨h, h2.symm⟩
  obtain ⟨hms, hst⟩ := hms
  subst hst
  have hinv : CacheInv (⟨[], ms.toNat⟩ : LRUCache α) :=
    ⟨by simp [keysOf], by simp⟩
  obtain ⟨⟨hn, hlen⟩, hmax⟩ := cacheInv_runOps ops hinv
  refine ⟨by simpa [hmax] using hlen, ?_⟩
  intro now key value ttl hover
  exact set_evicts_head now key value ttl hn (by rw [hmax]; simp; omega) hover

/-- Claim C1 witness: a capacity-1 cache holding `a`; setting `b` overflows
and evicts the head entry `a`, not the just-inserted `b`. -/
theorem lru_capacity_and_eviction_witness :
    LRUCache.init String 1 = Except.ok ⟨[], 1⟩
    ∧ (runCacheOps (⟨[], 1⟩ : LRUCache String)
        [CacheOp.set 0 "a" "x" none]).cache.length ≤ 1
    ∧ (LRUCache.setPre (runCacheOps (⟨[], 1⟩ : LRUCache String)
        [CacheOp.set 0 "a" "x" none]) 1 "b" "y" none).length
        > (runCacheOps (⟨[], 1⟩ : LRUCache String)
            [CacheOp.set 0 "a" "x" none]).max_size
    ∧ ∃ ev rest,
        LRUCache.setPre (runCacheOps (⟨[], 1⟩ : LRUCache String)
          [CacheOp.set 0 "a" "x" none]) 1 "b" "y" none = ev :: rest
        ∧ (LRUCache.set (runCacheOps (⟨[], 1⟩ : LRUCache String)
            [CacheOp.set 0 "a" "x" none]) 1 "b" "y" none).cache = rest
        ∧ ev.1 ≠ "b" := by
  refine ⟨rfl, ?_, by decide, ?_⟩
  · exact (lru_capacity_and_eviction 1 ⟨[], 1⟩ rfl [CacheOp.set 0 "a" "x" none]).1
  · exact (lru_capacity_and_eviction 1 ⟨[], 1⟩ rfl
      [CacheOp.set 0 "a" "x" none]).2 1 "b" "y" none (by decide)

/-- Claim C10: constructing the cache with `max_size <= 0` raises `ValueError`
(the exact message of the source); every successfully constructed cache has
`max_size >= 1`; and consequently, on any reachable state, the entry
evicted by an overflowing `set` is never the one just inserted. -/
theorem lru_init_positive_capacity {α : Type} (ms : Int) :
    (ms ≤ 0 → LRUCache.init α ms
        = Except.error "Cache max_size must be positive.")
    ∧ (∀ st : LRUCache α, LRUCache.init α ms = Except.ok st → 1 ≤ st.max_size)
    ∧ ∀ (st : LRUCache α) (ops : List (CacheOp α)) (now : ℚ) (key : String)
        (value : α) (ttl : Option ℚ) ev rest,
        LRUCache.init α ms = Except.ok st →
        (LRUCache.setPre (runCacheOps st ops) now key value ttl).length
            > (runCacheOps st ops).max_size →
        LRUCache.setPre (runCacheOps st ops) now key value ttl = ev :: rest →
        ev.1 ≠ key := by
  refine ⟨?_, ?_, ?_⟩
  · intro h
    unfold LRUCache.init
    rw [if_pos h]
  · intro st hinit
    unfold LRUCache.init at hinit
    by_cases h : ms ≤ 0
    · rw [if_pos h] at hinit
      exact absurd hinit (by simp)
    · rw [if_neg h] at hinit
      injection hinit with h2
      rw [← h2]
      simp
      omega
  · intro st ops now key value ttl ev rest hinit hover hpre
    have hms : ¬ ms ≤ 0 ∧ st = ⟨[], ms.toNat⟩ := by
      unfold LRUCache.init at hinit
      by_cases h : ms ≤ 0
      · rw [if_pos h] at hinit
        exact absurd hinit (by simp)
      · rw [if_neg h] at hinit
        injection hinit with h2
        exact ⟨h, h2.symm⟩
    obtain ⟨hms, hst⟩ := hms
    subst hst
    have hinv : CacheInv (⟨[], ms.toNat⟩ : LRUCache α) :=
      ⟨by simp [keysOf], by simp⟩
    obtain ⟨⟨hn, _⟩, hmax⟩ := cacheInv_runOps ops hinv
    obtain ⟨ev2, rest2, hpre2, _, hne2⟩ :=
      set_evicts_head now key value ttl hn (by rw [hmax]; simp; omega) hover
    rw [hpre] at hpre2
    injection hpre2 with he _
    rw [← he] at hne2
    exact hne2

/-- Claim C10 witness: `max_size = 0` is rejected with the `ValueError`
message; `max_size = 1` yields capacity 1; the overflow eviction from a
reachable capacity-1 state never removes the just-inserted key. -/
theorem lru_init_positive_capacity_witness :
    ((0:Int) ≤ 0
      ∧ LRUCache.init String 0 = Except.error "Cache max_size must be positive.")
    ∧ (LRUCache.init String 1 = Except.ok ⟨[], 1⟩
      ∧ 1 ≤ (⟨[], 1⟩ : LRUCache String).max_size)
    ∧ ((LRUCache.setPre (runCacheOps (⟨[], 1⟩ : LRUCache String)
          [CacheOp.set 0 "p" "x" none]) 1 "q" "y" none).length
          > (runCacheOps (⟨[], 1⟩ : LRUCache String)
              [CacheOp.set 0 "p" "x" none]).max_size
      ∧ LRUCache.setPre (runCacheOps (⟨[], 1⟩ : LRUCache String)
          [CacheOp.set 0 "p" "x" none]) 1 "q" "y" none
          = ("p", ⟨"x", none, none⟩)
            :: [("q", ⟨"y", none, none⟩)]
      ∧ ("p", (⟨"x", none, none⟩ : LRUEntry String)).1 ≠ "q") := by
  have hpre : LRUCache.setPre (runCacheOps (⟨[], 1⟩ : LRUCache String)
      [CacheOp.set 0 "p" "x" none]) 1 "q" "y" none
      = ("p", (⟨"x", none, none⟩ : LRUEntry String))
        :: [("q", (⟨"y", none, none⟩ : LRUEntry String))] := by decide
  refine ⟨⟨by decide, (@lru_init_positive_capacity String 0).1 (by decide)⟩,
    ⟨rfl, (@lru_init_positive_capacity String 1).2.1 ⟨[], 1⟩ rfl⟩,
    ⟨by decide, hpre, ?_⟩⟩
  exact (@lru_init_positive_capacity String 1).2.2 ⟨[], 1⟩
    [CacheOp.set 0 "p" "x" none] 1 "q" "y" none _ _ rfl (by decide) hpre

/-- Claim C6: `get` returns the stored value when the key is present and its
expiry instant has not passed, and absent otherwise; an expired entry is
removed as a side effect (so the entry count drops by one); a successful
LRU-cache `get` moves the entry to the back of the eviction order
(most-recently-used).  Stated for both `InMemoryLRUCache` and
`LocalCache`. -/
theorem cache_get_ttl_semantics {α : Type} (c : LRUCache α)
    (lc : LocalCache α) (now : ℚ) (key : String) :
    (lookupKey c.cache key = none → LRUCache.get c now key = (none, c))
    ∧ (∀ e, lookupKey c.cache key = some e → lruExpired e now = false →
        (LRUCache.get c now key).1 = some e.value
        ∧ (LRUCache.get c now key).2.cache = eraseKey c.cache key ++ [(key, e)]
        ∧ ((LRUCache.get c now key).2.cache).getLast? = some (key, e))
    ∧ (∀ e, lookupKey c.cache key = some e → lruExpired e now = true →
        LRUCache.get c now key = (none, { c with cache := eraseKey c.cache key })
        ∧ (LRUCache.get c now key).2.cache.length + 1 = c.cache.length)
    ∧ (lookupKey lc._cache key = none → LocalCache.get lc now key = (none, lc))
    ∧ (∀ v, lookupKey lc._cache key = some v →
        ¬ now > (lookupKey lc._ttl key).getD 0 →
        LocalCache.get lc now key = (some v, lc))
    ∧ (∀ v, lookupKey lc._cache key = some v →
        now > (lookupKey lc._ttl key).getD 0 →
        (LocalCache.get lc now key).1 = none
        ∧ (LocalCache.get lc now key).2 = (LocalCache.delete lc key).2
        ∧ (LocalCache.get lc now key).2._cache.length + 1 = lc._cache.length) := by
  refine ⟨?_, ?_, ?_, ?_, ?_, ?_⟩
  · intro h
    unfold LRUCache.get
    rw [h]
  · intro e he hexp
    unfold LRUCache.get
    rw [he]
    simp only [hexp, Bool.false_eq_true, if_false]
    rw [moveToEnd_of_present he]
    exact ⟨trivial, rfl, by rw [List.getLast?_concat]⟩
  · intro e he hexp
    unfold LRUCache.get
    rw [he]
    simp only [hexp, if_true]
    exact ⟨trivial, by simpa using length_eraseKey_present he⟩
  · intro h
    unfold LocalCache.get
    rw [h]
  · intro v hv hfresh
    unfold LocalCache.get
    rw [hv]
    simp only [hfresh, if_false]
  · intro v hv hexp
    unfold LocalCache.get
    rw [hv]
    simp only [hexp, if_true]
    refine ⟨trivial, trivial, ?_⟩
    unfold LocalCache.delete
    rw [if_pos (by rw [hv]; rfl)]
    simpa using length_eraseKey_present hv

/-- Claim C6 witness: an entry with expiry instant 5 is returned (and moved
to the back) at `now = 3`, and is absent — with the entry physically
removed — at `now = 6`; same TTL behaviour on `LocalCache`. -/
theorem cache_get_ttl_semantics_witness :
    (lookupKey ((⟨[("j", ⟨"w", none, none⟩), ("k", ⟨"v", some 1, some 5⟩)], 4⟩
        : LRUCache String)).cache "k" = some ⟨"v", some 1, some 5⟩
      ∧ lruExpired (⟨"v", some 1, some 5⟩ : LRUEntry String) 3 = false
      ∧ (LRUCache.get ⟨[("j", ⟨"w", none, none⟩), ("k", ⟨"v", some 1, some 5⟩)], 4⟩
          3 "k").1 = some "v"
      ∧ ((LRUCache.get ⟨[("j", ⟨"w", none, none⟩), ("k", ⟨"v", some 1, some 5⟩)], 4⟩
          3 "k").2.cache).getLast? = some ("k", ⟨"v", some 1, some 5⟩))
    ∧ (lruExpired (⟨"v", some 1, some 5⟩ : LRUEntry String) 6 = true
      ∧ (LRUCache.get ⟨[("j", ⟨"w", none, none⟩), ("k", ⟨"v", some 1, some 5⟩)], 4⟩
          6 "k").2.cache.length + 1 = 2)
    ∧ (lookupKey ((⟨[("k", "v")], [("k", 5)], 300⟩
        : LocalCache String))._cache "k" = some "v"
      ∧ ¬ (3:ℚ) > (lookupKey ((⟨[("k", "v")], [("k", 5)], 300⟩
          : LocalCache String))._ttl "k").getD 0
      ∧ LocalCache.get (⟨[("k", "v")], [("k", 5)], 300⟩ : LocalCache String)
          3 "k" = (some "v", ⟨[("k", "v")], [("k", 5)], 300⟩)
      ∧ (6:ℚ) > (lookupKey ((⟨[("k", "v")], [("k", 5)], 300⟩
          : LocalCache String))._ttl "k").getD 0
      ∧ (LocalCache.get (⟨[("k", "v")], [("k", 5)], 300⟩ : LocalCache String)
          6 "k").1 = none) := by
  have h1 := (cache_get_ttl_semantics
    (⟨[("j", ⟨"w", none, none⟩), ("k", ⟨"v", some 1, some 5⟩)], 4⟩ : LRUCache String)
    (⟨[("k", "v")], [("k", 5)], 300⟩ : LocalCache String) 3 "k")
  have h2 := (cache_get_ttl_semantics
    (⟨[("j", ⟨"w", none, none⟩), ("k", ⟨"v", some 1, some 5⟩)], 4⟩ : LRUCache String)
    (⟨[("k", "v")], [("k", 5)], 300⟩ : LocalCache String) 6 "k")
  have hf := h1.2.1 ⟨"v", some 1, some 5⟩ (by decide) (by decide)
  have hx := h2.2.2.1 ⟨"v", some 1, some 5⟩ (by decide) (by decide)
  refine ⟨⟨by decide, by decide, hf.1, hf.2.2⟩,
    ⟨by decide, hx.2⟩,
    ⟨by decide, by decide, ?_, by decide, ?_⟩⟩
  · exact h1.2.2.2.2.1 "v" (by decide) (by decide)
  · exact (h2.2.2.2.2.2 "v" (by decide) (by decide)).1

/-- Claim C7 counterexample: on a cache that does contain key `"k"`,
`InMemoryLRUCache.delete` does not return `True` — its Python return value
is `None` (the method is annotated `-> None`), so "delete returns a boolean
that is true exactly when the key was present" fails on this cache. -/
theorem lru_delete_returns_none_counterexample :
    lookupKey ((⟨[("k", ⟨"v", none, none⟩)], 4⟩ : LRUCache String)).cache "k"
        = some ⟨"v", none, none⟩
    ∧ (LRUCache.delete (⟨[("k", ⟨"v", none, none⟩)], 4⟩ : LRUCache String)
        "k").1 ≠ some true := by
  decide

/-- Claim C7, amended: `LocalCache.delete` removes the entry and returns the
boolean that is true exactly when the key was present; `InMemoryLRUCache.delete`
also removes the entry but returns `None` rather than a boolean. -/
theorem cache_delete_semantics {α : Type} (lc : LocalCache α)
    (c : LRUCache α) (key : String) (h1 : (keysOf lc._cache).Nodup)
    (h2 : (keysOf c.cache).Nodup) :
    (LocalCache.delete lc key).1 = (lookupKey lc._cache key).isSome
    ∧ lookupKey (LocalCache.delete lc key).2._cache key = none
    ∧ (LRUCache.delete c key).1 = none
    ∧ lookupKey (LRUCache.delete c key).2.cache key = none := by
  refine ⟨?_, ?_, ?_, ?_⟩
  · unfold LocalCache.delete
    by_cases hp : (lookupKey lc._cache key).isSome = true
    · rw [if_pos hp, hp]
    · rw [if_neg hp]
      simp only [Bool.not_eq_true] at hp
      rw [hp]
  · unfold LocalCache.delete
    by_cases hp : (lookupKey lc._cache key).isSome = true
    · rw [if_pos hp]
      exact (lookupKey_eq_none_iff _ _).mpr (not_mem_keys_eraseKey h1)
    · rw [if_neg hp]
      show lookupKey lc._cache key = none
      cases hl : lookupKey lc._cache key with
      | none => rfl
      | some v => rw [hl] at hp; simp at hp
  · unfold LRUCache.delete
    by_cases hp : (lookupKey c.cache key).isSome = true
    · rw [if_pos hp]
    · rw [if_neg hp]
  · unfold LRUCache.delete
    by_cases hp : (lookupKey c.cache key).isSome = true
    · rw [if_pos hp]
      exact (lookupKey_eq_none_iff _ _).mpr (not_mem_keys_eraseKey h2)
    · rw [if_neg hp]
      show lookupKey c.cache key = none
      cases hl : lookupKey c.cache key with
      | none => rfl
      | some v => rw [hl] at hp; simp at hp

/-- Claim C7 witness: deleting present key `"k"` returns `True` on
`LocalCache` and `None` on `InMemoryLRUCache`; both remove the entry. -/
theorem cache_delete_semantics_witness :
    (keysOf ((⟨[("k", "v")], [("k", 5)], 300⟩ : LocalCache String))._cache).Nodup
    ∧ (keysOf ((⟨[("k", ⟨"v", none, none⟩)], 4⟩ : LRUCache String)).cache).Nodup
    ∧ (LocalCache.delete (⟨[("k", "v")], [("k", 5)], 300⟩ : LocalCache String)
        "k").1 = (lookupKey ([("k", "v")] : List (String × String)) "k").isSome
    ∧ lookupKey (LocalCache.delete
        (⟨[("k", "v")], [("k", 5)], 300⟩ : LocalCache String) "k").2._cache "k"
        = none
    ∧ (LRUCache.delete (⟨[("k", ⟨"v", none, none⟩)], 4⟩ : LRUCache String)
        "k").1 = none
    ∧ lookupKey (LRUCache.delete
        (⟨[("k", ⟨"v", none, none⟩)], 4⟩ : LRUCache String) "k").2.cache "k"
        = none := by
  have h := cache_delete_semantics
    (⟨[("k", "v")], [("k", 5)], 300⟩ : LocalCache String)
    (⟨[("k", ⟨"v", none, none⟩)], 4⟩ : LRUCache String) "k"
    (by decide) (by decide)
  exact ⟨by decide, by decide, h.1, h.2.1, h.2.2.1, h.2.2.2⟩

end SC
